import Mathlib

/-!
Verification of the PMF (probabilistic matrix factorization) core of the
kamrecsys library, shallowly embedded in Lean 4.

The embedding follows `kamrecsys/score_predictor/matrix_factorization.py`:

* the flat parameter buffer `self._coef` of length
  `1 + n_users + n_items + n_users*k + n_items*k` and its structured-dtype
  view (`mu`, `bu`, `bi`, `p`, `q`) become a function `Fin paramLen → α`
  together with an index-region type `PIdx` and an `encode`/`decode` pair;
* `PMF.loss` and `PMF.grad_loss` become `loss` and `grad_loss`;
* `PMF._init_coef`'s closed-form bias initialisation becomes `initMu`,
  `initBu`, `initBi`, and the regularization scale becomes `regScale`;
* the post-fit fallback-row appending (`PMF.fit`, lines appending a zero
  row to each tensor) becomes `postProcess`, and `PMF.raw_predict` with
  numpy integer-indexing semantics becomes `rawPredict`;
* the external-id conversion `EventUtilMixin.to_iid_event` (dict `get`
  with the object count as default) becomes `toIid`, and
  `BaseEventRecommender.predict` becomes `predictExt`.
-/

namespace KamRecSys

/-- Model sizes: number of users, number of items, number of latent
factors.  These are `n_objects[0]`, `n_objects[1]` and `self.k` in the
source. -/
structure Shape where
  nUsers : ℕ
  nItems : ℕ
  k : ℕ
deriving DecidableEq

/-- Length of the flat coefficient buffer `self._coef`, as allocated in
`PMF._init_coef`: `1 + n_users + n_items + n_users * k + n_items * k`. -/
def Shape.paramLen (s : Shape) : ℕ :=
  1 + s.nUsers + s.nItems + s.nUsers * s.k + s.nItems * s.k

/-- Offset of the user-factor region in the flat buffer. -/
def Shape.pOfs (s : Shape) : ℕ := 1 + s.nUsers + s.nItems

/-- Offset of the item-factor region in the flat buffer. -/
def Shape.qOfs (s : Shape) : ℕ := 1 + s.nUsers + s.nItems + s.nUsers * s.k

/-- A named coordinate of the parameter buffer: the five regions of the
structured dtype `self._dt` declared in `PMF._init_coef`
(`mu`, `bu`, `bi`, `p`, `q`, in this fixed order). -/
inductive PIdx (s : Shape) where
  | mu
  | bu (u : Fin s.nUsers)
  | bi (i : Fin s.nItems)
  | p (u : Fin s.nUsers) (f : Fin s.k)
  | q (i : Fin s.nItems) (f : Fin s.k)
deriving DecidableEq

theorem mul_add_lt {u f nU k : ℕ} (hu : u < nU) (hf : f < k) :
    u * k + f < nU * k :=
  calc u * k + f < u * k + k := by omega
    _ = (u + 1) * k := by rw [Nat.add_mul, Nat.one_mul]
    _ ≤ nU * k := Nat.mul_le_mul_right k hu

/-- Flat offset of a named coordinate, mirroring the field order and
row-major sub-array layout of the structured dtype. -/
def encode {s : Shape} : PIdx s → ℕ
  | .mu => 0
  | .bu u => 1 + u
  | .bi i => 1 + s.nUsers + i
  | .p u f => s.pOfs + (u * s.k + f)
  | .q i f => s.qOfs + (i * s.k + f)

theorem encode_lt {s : Shape} (j : PIdx s) : encode j < s.paramLen := by
  have hq : s.paramLen = s.qOfs + s.nItems * s.k := rfl
  have hpq : s.qOfs = s.pOfs + s.nUsers * s.k := rfl
  cases j with
  | mu => simp only [encode, Shape.paramLen]; omega
  | bu u =>
      have := u.isLt
      simp only [encode, Shape.paramLen]; omega
  | bi i =>
      have := i.isLt
      simp only [encode, Shape.paramLen]; omega
  | p u f =>
      have h := mul_add_lt u.isLt f.isLt
      simp only [encode]
      omega
  | q i f =>
      have h := mul_add_lt i.isLt f.isLt
      simp only [encode]
      omega

/-- Flat offset of a named coordinate, as an element of `Fin paramLen`. -/
def encodeFin {s : Shape} (j : PIdx s) : Fin s.paramLen :=
  ⟨encode j, encode_lt j⟩

/-- Recover the named coordinate from a flat offset (the inverse view:
which dtype field and which sub-array cell a flat position belongs to). -/
def decode {s : Shape} (x : Fin s.paramLen) : PIdx s :=
  if h1 : (x : ℕ) < 1 then .mu
  else if h2 : (x : ℕ) < 1 + s.nUsers then .bu ⟨(x : ℕ) - 1, by omega⟩
  else if h3 : (x : ℕ) < s.pOfs then
    .bi ⟨(x : ℕ) - (1 + s.nUsers), by
      have : s.pOfs = 1 + s.nUsers + s.nItems := rfl
      omega⟩
  else if h4 : (x : ℕ) < s.qOfs then
    have hk : 0 < s.k := by
      have hq : s.qOfs = s.pOfs + s.nUsers * s.k := rfl
      rcases Nat.eq_zero_or_pos s.k with hz | hp
      · exfalso
        have h0 : s.nUsers * s.k = 0 := by rw [hz, Nat.mul_zero]
        omega
      · exact hp
    .p ⟨((x : ℕ) - s.pOfs) / s.k, by
          rw [Nat.div_lt_iff_lt_mul hk]
          have : s.qOfs = s.pOfs + s.nUsers * s.k := rfl
          omega⟩
      ⟨((x : ℕ) - s.pOfs) % s.k, Nat.mod_lt _ hk⟩
  else
    have hx := x.isLt
    have hk : 0 < s.k := by
      have hq : s.paramLen = s.qOfs + s.nItems * s.k := rfl
      rcases Nat.eq_zero_or_pos s.k with hz | hp
      · exfalso
        have h0 : s.nItems * s.k = 0 := by rw [hz, Nat.mul_zero]
        omega
      · exact hp
    .q ⟨((x : ℕ) - s.qOfs) / s.k, by
          rw [Nat.div_lt_iff_lt_mul hk]
          have : s.paramLen = s.qOfs + s.nItems * s.k := rfl
          omega⟩
      ⟨((x : ℕ) - s.qOfs) % s.k, Nat.mod_lt _ hk⟩

theorem decode_encode {s : Shape} (j : PIdx s) : decode (encodeFin j) = j := by
  have hpq : s.qOfs = s.pOfs + s.nUsers * s.k := rfl
  cases j with
  | mu => simp [decode, encodeFin, encode]
  | bu u =>
      have hu := u.isLt
      simp only [decode, encodeFin, encode]
      rw [dif_neg (by omega), dif_pos (by omega)]
      congr 1
      exact Fin.ext (by simp)
  | bi i =>
      have hi := i.isLt
      have hp : s.pOfs = 1 + s.nUsers + s.nItems := rfl
      simp only [decode, encodeFin, encode]
      rw [dif_neg (by omega), dif_neg (by omega), dif_pos (by omega)]
      congr 1
      exact Fin.ext (by simp)
  | p u f =>
      have hu := u.isLt
      have hf := f.isLt
      have hk : 0 < s.k := by omega
      have hlt := mul_add_lt hu hf
      have hp : s.pOfs = 1 + s.nUsers + s.nItems := rfl
      simp only [decode, encodeFin, encode]
      rw [dif_neg (by omega), dif_neg (by omega), dif_neg (by omega),
        dif_pos (by omega)]
      have hsub : s.pOfs + (u * s.k + f) - s.pOfs = u * s.k + f := by omega
      congr 1
      · exact Fin.ext (by
          simp only [hsub]
          rw [Nat.mul_comm (u : ℕ) s.k, Nat.mul_add_div hk,
            Nat.div_eq_of_lt hf]
          simp)
      · exact Fin.ext (by
          simp only [hsub]
          rw [Nat.mul_comm (u : ℕ) s.k, Nat.mul_add_mod,
            Nat.mod_eq_of_lt hf])
  | q i f =>
      have hi := i.isLt
      have hf := f.isLt
      have hk : 0 < s.k := by omega
      have hlt := mul_add_lt hi hf
      have hp : s.pOfs = 1 + s.nUsers + s.nItems := rfl
      simp only [decode, encodeFin, encode]
      rw [dif_neg (by omega), dif_neg (by omega), dif_neg (by omega),
        dif_neg (by omega)]
      have hsub : s.qOfs + (i * s.k + f) - s.qOfs = i * s.k + f := by omega
      congr 1
      · exact Fin.ext (by
          simp only [hsub]
          rw [Nat.mul_comm (i : ℕ) s.k, Nat.mul_add_div hk,
            Nat.div_eq_of_lt hf]
          simp)
      · exact Fin.ext (by
          simp only [hsub]
          rw [Nat.mul_comm (i : ℕ) s.k, Nat.mul_add_mod,
            Nat.mod_eq_of_lt hf])

theorem encode_decode {s : Shape} (x : Fin s.paramLen) :
    encodeFin (decode x) = x := by
  have hpq : s.qOfs = s.pOfs + s.nUsers * s.k := rfl
  have hp : s.pOfs = 1 + s.nUsers + s.nItems := rfl
  apply Fin.ext
  by_cases h1 : (x : ℕ) < 1
  · simp [decode, h1, encodeFin, encode]; omega
  · by_cases h2 : (x : ℕ) < 1 + s.nUsers
    · simp [decode, h1, h2, encodeFin, encode]; omega
    · by_cases h3 : (x : ℕ) < s.pOfs
      · simp [decode, h1, h2, h3, encodeFin, encode]; omega
      · by_cases h4 : (x : ℕ) < s.qOfs
        · simp only [decode, dif_neg h1, dif_neg h2, dif_neg h3, dif_pos h4,
            encodeFin, encode]
          have := Nat.div_add_mod ((x : ℕ) - s.pOfs) s.k
          have hmul : ((x : ℕ) - s.pOfs) / s.k * s.k
              = s.k * (((x : ℕ) - s.pOfs) / s.k) := Nat.mul_comm _ _
          omega
        · simp only [decode, dif_neg h1, dif_neg h2, dif_neg h3, dif_neg h4,
            encodeFin, encode]
          have := Nat.div_add_mod ((x : ℕ) - s.qOfs) s.k
          have hmul : ((x : ℕ) - s.qOfs) / s.k * s.k
              = s.k * (((x : ℕ) - s.qOfs) / s.k) := Nat.mul_comm _ _
          omega

theorem encodeFin_injective {s : Shape} :
    Function.Injective (encodeFin : PIdx s → Fin s.paramLen) :=
  Function.LeftInverse.injective decode_encode

/-- Reading the flat buffer after a single-coordinate write: the write is
visible at its own coordinate and invisible at every other one (the five
regions alias disjoint parts of the buffer). -/
theorem update_encodeFin {s : Shape} {α : Type} (c : Fin s.paramLen → α)
    (a b : PIdx s) (t : α) :
    Function.update c (encodeFin a) t (encodeFin b)
      = if b = a then t else c (encodeFin b) := by
  rw [Function.update_apply]
  rcases eq_or_ne b a with h | h
  · subst h; simp
  · rw [if_neg (fun hc => h (encodeFin_injective hc)), if_neg h]

/-! ## Loss/gradient evaluator (`PMF.loss`, `PMF.grad_loss`)

The flat coefficient buffer is a function `Fin s.paramLen → α`; the
structured-dtype views of the source become reads at encoded offsets.
An event batch is `ev : Fin nE → Fin nUsers × Fin nItems` with scores
`sc : Fin nE → α` (the source's `ev` array of internal indices and `sc`
array of scores). -/

variable {s : Shape} {nE : ℕ} {α : Type} [Field α]

/-- View `coef.view(self._dt)['mu'][0][0]`. -/
def muV (c : Fin s.paramLen → α) : α := c (encodeFin PIdx.mu)

/-- View `coef.view(self._dt)['bu'][0][u]`. -/
def buV (c : Fin s.paramLen → α) (u : Fin s.nUsers) : α :=
  c (encodeFin (PIdx.bu u))

/-- View `coef.view(self._dt)['bi'][0][i]`. -/
def biV (c : Fin s.paramLen → α) (i : Fin s.nItems) : α :=
  c (encodeFin (PIdx.bi i))

/-- View `coef.view(self._dt)['p'][0][u, f]`. -/
def pV (c : Fin s.paramLen → α) (u : Fin s.nUsers) (f : Fin s.k) : α :=
  c (encodeFin (PIdx.p u f))

/-- View `coef.view(self._dt)['q'][0][i, f]`. -/
def qV (c : Fin s.paramLen → α) (i : Fin s.nItems) (f : Fin s.k) : α :=
  c (encodeFin (PIdx.q i f))

/-- Predicted score of one event, as computed in `PMF.loss`:
`mu[0] + bu[ev[:, 0]] + bi[ev[:, 1]] + sum(p[ev[:, 0], :] * q[ev[:, 1], :], axis=1)`. -/
def esc (c : Fin s.paramLen → α) (e : Fin s.nUsers × Fin s.nItems) : α :=
  muV c + buV c e.1 + biV c e.2 + ∑ f : Fin s.k, pV c e.1 f * qV c e.2 f

/-- Regularization term of `PMF.loss`:
`np.sum(bu ** 2) + np.sum(bi ** 2) + np.sum(p ** 2) + np.sum(q ** 2)` —
the global bias `mu` is not included. -/
def regSum (c : Fin s.paramLen → α) : α :=
  (∑ u, buV c u ^ 2) + (∑ i, biV c i ^ 2)
    + (∑ u, ∑ f, pV c u f ^ 2) + (∑ i, ∑ f, qV c i f ^ 2)

/-- Source `PMF.loss`: `np.sum((sc - esc) ** 2) / n_events + self._reg * reg`. -/
def loss (c : Fin s.paramLen → α) (ev : Fin nE → Fin s.nUsers × Fin s.nItems)
    (sc : Fin nE → α) (reg : α) : α :=
  (∑ e, (sc e - esc c (ev e)) ^ 2) / (nE : α) + reg * regSum c

/-- The per-event residual `neg_res = -(sc - esc)` of `PMF.grad_loss`. -/
def negRes (c : Fin s.paramLen → α) (ev : Fin nE → Fin s.nUsers × Fin s.nItems)
    (sc : Fin nE → α) (e : Fin nE) : α :=
  -(sc e - esc c (ev e))

/-- The gradient buffer of `PMF.grad_loss`, read at one named coordinate.
The `np.bincount(idx, weights, minlength)` scatter-accumulations become
sums over the events whose user (item) index matches; the whole data term
is divided by `n_events` (`grad[:] = grad[:] / n_events`), after which the
regularization contribution `self._reg * view` is added to every region
except `mu`. -/
def gradAt (c : Fin s.paramLen → α) (ev : Fin nE → Fin s.nUsers × Fin s.nItems)
    (sc : Fin nE → α) (reg : α) : PIdx s → α
  | .mu => (∑ e, negRes c ev sc e) / (nE : α)
  | .bu u => (∑ e, if (ev e).1 = u then negRes c ev sc e else 0) / (nE : α)
      + reg * buV c u
  | .bi i => (∑ e, if (ev e).2 = i then negRes c ev sc e else 0) / (nE : α)
      + reg * biV c i
  | .p u f => (∑ e, if (ev e).1 = u
        then negRes c ev sc e * qV c (ev e).2 f else 0) / (nE : α)
      + reg * pV c u f
  | .q i f => (∑ e, if (ev e).2 = i
        then negRes c ev sc e * pV c (ev e).1 f else 0) / (nE : α)
      + reg * qV c i f

/-- Source `PMF.grad_loss` as a flat buffer: the value of the returned `grad`
array at each flat position. -/
def grad_loss (c : Fin s.paramLen → α)
    (ev : Fin nE → Fin s.nUsers × Fin s.nItems) (sc : Fin nE → α) (reg : α) :
    Fin s.paramLen → α :=
  fun x => gradAt c ev sc reg (decode x)

/-! ## Spec-side formulation (§4.3 of the specification)

`Params`, `predictedSpec` and `lossSpec` transcribe the specification's
words (named parameter tensors, the additive-plus-bilinear prediction rule
and the loss formula), to be compared against the source-derived `loss`. -/

/-- The five named parameter tensors of the specification's data model. -/
structure Params (s : Shape) (α : Type) where
  mu : α
  bu : Fin s.nUsers → α
  bi : Fin s.nItems → α
  p : Fin s.nUsers → Fin s.k → α
  q : Fin s.nItems → Fin s.k → α

/-- Spec: predicted score for event e =
global_bias + user_bias[u(e)] + item_bias[i(e)] + dot(user_factor[u(e)], item_factor[i(e)]). -/
def predictedSpec (w : Params s α) (u : Fin s.nUsers) (i : Fin s.nItems) : α :=
  w.mu + w.bu u + w.bi i + ∑ f, w.p u f * w.q i f

/-- Spec: loss = (sum over events of (score − predicted)²) / n_events
+ reg_scale × (sum of squares of user_bias, item_bias, user_factors,
item_factors); the global bias is excluded from the regularization sum. -/
def lossSpec (w : Params s α) (ev : Fin nE → Fin s.nUsers × Fin s.nItems)
    (sc : Fin nE → α) (regScale : α) : α :=
  (∑ e, (sc e - predictedSpec w (ev e).1 (ev e).2) ^ 2) / (nE : α)
    + regScale * ((∑ u, w.bu u ^ 2) + (∑ i, w.bi i ^ 2)
      + (∑ u, ∑ f, w.p u f ^ 2) + (∑ i, ∑ f, w.q i f ^ 2))

/-- The named view of a flat buffer (the five aliasing sub-tensors). -/
def view (c : Fin s.paramLen → α) : Params s α :=
  ⟨muV c, buV c, biV c, pV c, qV c⟩

/-! ## Gradient analysis

`slope c j e` is the coefficient of coordinate `j` in the (affine)
dependence of the predicted score of event `e` on that single coordinate;
`regInd j` is `1` on regularized coordinates and `0` on the global bias. -/

/-- Sensitivity of one event's predicted score to one coordinate. -/
def slope (c : Fin s.paramLen → α) :
    PIdx s → Fin s.nUsers × Fin s.nItems → α
  | .mu, _ => 1
  | .bu u, e => if e.1 = u then 1 else 0
  | .bi i, e => if e.2 = i then 1 else 0
  | .p u f, e => if e.1 = u then qV c e.2 f else 0
  | .q i f, e => if e.2 = i then pV c e.1 f else 0

/-- Indicator of the regularized regions (all but the global bias). -/
def regInd : PIdx s → α
  | .mu => 0
  | .bu _ => 1
  | .bi _ => 1
  | .p _ _ => 1
  | .q _ _ => 1

omit [Field α] in
theorem muV_update (c : Fin s.paramLen → α) (j : PIdx s) (t : α) :
    muV (Function.update c (encodeFin j) t)
      = if PIdx.mu = j then t else muV c :=
  update_encodeFin c j PIdx.mu t

omit [Field α] in
theorem buV_update (c : Fin s.paramLen → α) (j : PIdx s) (t : α)
    (u : Fin s.nUsers) :
    buV (Function.update c (encodeFin j) t) u
      = if PIdx.bu u = j then t else buV c u :=
  update_encodeFin c j (PIdx.bu u) t

omit [Field α] in
theorem biV_update (c : Fin s.paramLen → α) (j : PIdx s) (t : α)
    (i : Fin s.nItems) :
    biV (Function.update c (encodeFin j) t) i
      = if PIdx.bi i = j then t else biV c i :=
  update_encodeFin c j (PIdx.bi i) t

omit [Field α] in
theorem pV_update (c : Fin s.paramLen → α) (j : PIdx s) (t : α)
    (u : Fin s.nUsers) (f : Fin s.k) :
    pV (Function.update c (encodeFin j) t) u f
      = if PIdx.p u f = j then t else pV c u f :=
  update_encodeFin c j (PIdx.p u f) t

omit [Field α] in
theorem qV_update (c : Fin s.paramLen → α) (j : PIdx s) (t : α)
    (i : Fin s.nItems) (f : Fin s.k) :
    qV (Function.update c (encodeFin j) t) i f
      = if PIdx.q i f = j then t else qV c i f :=
  update_encodeFin c j (PIdx.q i f) t

theorem sum_ite_mul_left {n : ℕ} (g h : Fin n → α) (f0 : Fin n) (t : α) :
    (∑ x, (if x = f0 then t else g x) * h x)
      = (∑ x, g x * h x) + (t - g f0) * h f0 := by
  have hpt : ∀ x : Fin n, (if x = f0 then t else g x) * h x
      = g x * h x + (if x = f0 then (t - g x) * h x else 0) := by
    intro x
    by_cases hx : x = f0
    · subst hx; rw [if_pos rfl, if_pos rfl]; ring
    · simp [hx]
  rw [Finset.sum_congr rfl fun x _ => hpt x, Finset.sum_add_distrib,
    Finset.sum_ite_eq' Finset.univ f0 (fun x => (t - g x) * h x)]
  simp

theorem sum_mul_ite_right {n : ℕ} (g h : Fin n → α) (f0 : Fin n) (t : α) :
    (∑ x, g x * (if x = f0 then t else h x))
      = (∑ x, g x * h x) + g f0 * (t - h f0) := by
  have hpt : ∀ x : Fin n, g x * (if x = f0 then t else h x)
      = g x * h x + (if x = f0 then g x * (t - h x) else 0) := by
    intro x
    by_cases hx : x = f0
    · subst hx; rw [if_pos rfl, if_pos rfl]; ring
    · simp [hx]
  rw [Finset.sum_congr rfl fun x _ => hpt x, Finset.sum_add_distrib,
    Finset.sum_ite_eq' Finset.univ f0 (fun x => g x * (t - h x))]
  simp

theorem sum_ite_sq {n : ℕ} (g : Fin n → α) (f0 : Fin n) (t : α) :
    (∑ x, (if x = f0 then t else g x) ^ 2)
      = (∑ x, g x ^ 2) + (t ^ 2 - g f0 ^ 2) := by
  have hpt : ∀ x : Fin n, (if x = f0 then t else g x) ^ 2
      = g x ^ 2 + (if x = f0 then t ^ 2 - g x ^ 2 else 0) := by
    intro x
    by_cases hx : x = f0
    · subst hx; rw [if_pos rfl, if_pos rfl]; ring
    · simp [hx]
  rw [Finset.sum_congr rfl fun x _ => hpt x, Finset.sum_add_distrib,
    Finset.sum_ite_eq' Finset.univ f0 (fun x => t ^ 2 - g x ^ 2)]
  simp

/-- Writing one coordinate changes each event's predicted score affinely,
with slope `slope c j e`. -/
theorem esc_update (c : Fin s.paramLen → α) (j : PIdx s) (t : α)
    (e : Fin s.nUsers × Fin s.nItems) :
    esc (Function.update c (encodeFin j) t) e
      = esc c e + slope c j e * (t - c (encodeFin j)) := by
  cases j with
  | mu =>
      have hm : muV (Function.update c (encodeFin PIdx.mu) t) = t := by
        rw [muV_update, if_pos rfl]
      have hb : ∀ u', buV (Function.update c (encodeFin PIdx.mu) t) u'
          = buV c u' := fun u' => by rw [buV_update, if_neg (by simp)]
      have hc : ∀ i', biV (Function.update c (encodeFin PIdx.mu) t) i'
          = biV c i' := fun i' => by rw [biV_update, if_neg (by simp)]
      have hp : ∀ u' f', pV (Function.update c (encodeFin PIdx.mu) t) u' f'
          = pV c u' f' := fun u' f' => by rw [pV_update, if_neg (by simp)]
      have hq : ∀ i' f', qV (Function.update c (encodeFin PIdx.mu) t) i' f'
          = qV c i' f' := fun i' f' => by rw [qV_update, if_neg (by simp)]
      simp only [esc, hm, hb, hc, hp, hq, slope]
      simp only [muV]
      ring
  | bu u =>
      have hm : muV (Function.update c (encodeFin (PIdx.bu u)) t) = muV c := by
        rw [muV_update, if_neg (by simp)]
      have hb : ∀ u', buV (Function.update c (encodeFin (PIdx.bu u)) t) u'
          = if u' = u then t else buV c u' := fun u' => by
        rw [buV_update]
        by_cases h : u' = u
        · subst h; rw [if_pos rfl, if_pos rfl]
        · rw [if_neg (by simp [h]), if_neg h]
      have hc : ∀ i', biV (Function.update c (encodeFin (PIdx.bu u)) t) i'
          = biV c i' := fun i' => by rw [biV_update, if_neg (by simp)]
      have hp : ∀ u' f', pV (Function.update c (encodeFin (PIdx.bu u)) t) u' f'
          = pV c u' f' := fun u' f' => by rw [pV_update, if_neg (by simp)]
      have hq : ∀ i' f', qV (Function.update c (encodeFin (PIdx.bu u)) t) i' f'
          = qV c i' f' := fun i' f' => by rw [qV_update, if_neg (by simp)]
      simp only [esc, hm, hb, hc, hp, hq, slope]
      by_cases h : e.1 = u
      · rw [if_pos h, if_pos h, h]
        simp only [muV, buV]
        ring
      · rw [if_neg h, if_neg h]
        ring
  | bi i =>
      have hm : muV (Function.update c (encodeFin (PIdx.bi i)) t) = muV c := by
        rw [muV_update, if_neg (by simp)]
      have hb : ∀ u', buV (Function.update c (encodeFin (PIdx.bi i)) t) u'
          = buV c u' := fun u' => by rw [buV_update, if_neg (by simp)]
      have hc : ∀ i', biV (Function.update c (encodeFin (PIdx.bi i)) t) i'
          = if i' = i then t else biV c i' := fun i' => by
        rw [biV_update]
        by_cases h : i' = i
        · subst h; rw [if_pos rfl, if_pos rfl]
        · rw [if_neg (by simp [h]), if_neg h]
      have hp : ∀ u' f', pV (Function.update c (encodeFin (PIdx.bi i)) t) u' f'
          = pV c u' f' := fun u' f' => by rw [pV_update, if_neg (by simp)]
      have hq : ∀ i' f', qV (Function.update c (encodeFin (PIdx.bi i)) t) i' f'
          = qV c i' f' := fun i' f' => by rw [qV_update, if_neg (by simp)]
      simp only [esc, hm, hb, hc, hp, hq, slope]
      by_cases h : e.2 = i
      · rw [if_pos h, if_pos h, h]
        simp only [muV, biV]
        ring
      · rw [if_neg h, if_neg h]
        ring
  | p u f =>
      have hm : muV (Function.update c (encodeFin (PIdx.p u f)) t) = muV c := by
        rw [muV_update, if_neg (by simp)]
      have hb : ∀ u', buV (Function.update c (encodeFin (PIdx.p u f)) t) u'
          = buV c u' := fun u' => by rw [buV_update, if_neg (by simp)]
      have hc : ∀ i', biV (Function.update c (encodeFin (PIdx.p u f)) t) i'
          = biV c i' := fun i' => by rw [biV_update, if_neg (by simp)]
      have hp : ∀ u' f', pV (Function.update c (encodeFin (PIdx.p u f)) t) u' f'
          = if u' = u ∧ f' = f then t else pV c u' f' := fun u' f' => by
        rw [pV_update]
        by_cases h : u' = u ∧ f' = f
        · obtain ⟨h1, h2⟩ := h
          subst h1; subst h2
          rw [if_pos rfl, if_pos ⟨rfl, rfl⟩]
        · rw [if_neg (by simpa [PIdx.p.injEq] using h), if_neg h]
      have hq : ∀ i' f', qV (Function.update c (encodeFin (PIdx.p u f)) t) i' f'
          = qV c i' f' := fun i' f' => by rw [qV_update, if_neg (by simp)]
      simp only [esc, hm, hb, hc, hp, hq, slope]
      by_cases h : e.1 = u
      · have hcong : ∀ f' : Fin s.k,
            (if e.1 = u ∧ f' = f then t else pV c e.1 f') * qV c e.2 f'
              = (if f' = f then t else pV c e.1 f') * qV c e.2 f' := by
          intro f'
          simp [h]
        rw [Finset.sum_congr rfl fun f' _ => hcong f',
          sum_ite_mul_left (fun f' => pV c e.1 f') (fun f' => qV c e.2 f') f t,
          if_pos h, h]
        simp only [pV, qV]
        ring
      · have hcong : ∀ f' : Fin s.k,
            (if e.1 = u ∧ f' = f then t else pV c e.1 f') * qV c e.2 f'
              = pV c e.1 f' * qV c e.2 f' := by
          intro f'
          simp [h]
        rw [Finset.sum_congr rfl fun f' _ => hcong f', if_neg h]
        ring
  | q i f =>
      have hm : muV (Function.update c (encodeFin (PIdx.q i f)) t) = muV c := by
        rw [muV_update, if_neg (by simp)]
      have hb : ∀ u', buV (Function.update c (encodeFin (PIdx.q i f)) t) u'
          = buV c u' := fun u' => by rw [buV_update, if_neg (by simp)]
      have hc : ∀ i', biV (Function.update c (encodeFin (PIdx.q i f)) t) i'
          = biV c i' := fun i' => by rw [biV_update, if_neg (by simp)]
      have hp : ∀ u' f', pV (Function.update c (encodeFin (PIdx.q i f)) t) u' f'
          = pV c u' f' := fun u' f' => by rw [pV_update, if_neg (by simp)]
      have hq : ∀ i' f', qV (Function.update c (encodeFin (PIdx.q i f)) t) i' f'
          = if i' = i ∧ f' = f then t else qV c i' f' := fun i' f' => by
        rw [qV_update]
        by_cases h : i' = i ∧ f' = f
        · obtain ⟨h1, h2⟩ := h
          subst h1; subst h2
          rw [if_pos rfl, if_pos ⟨rfl, rfl⟩]
        · rw [if_neg (by simpa [PIdx.q.injEq] using h), if_neg h]
      simp only [esc, hm, hb, hc, hp, hq, slope]
      by_cases h : e.2 = i
      · have hcong : ∀ f' : Fin s.k,
            pV c e.1 f' * (if e.2 = i ∧ f' = f then t else qV c e.2 f')
              = pV c e.1 f' * (if f' = f then t else qV c e.2 f') := by
          intro f'
          simp [h]
        rw [Finset.sum_congr rfl fun f' _ => hcong f',
          sum_mul_ite_right (fun f' => pV c e.1 f') (fun f' => qV c e.2 f') f t,
          if_pos h, h]
        simp only [pV, qV]
        ring
      · have hcong : ∀ f' : Fin s.k,
            pV c e.1 f' * (if e.2 = i ∧ f' = f then t else qV c e.2 f')
              = pV c e.1 f' * qV c e.2 f' := by
          intro f'
          simp [h]
        rw [Finset.sum_congr rfl fun f' _ => hcong f', if_neg h]
        ring

/-- Writing one coordinate changes the regularization sum by
`t² - old²` on regularized coordinates and not at all on the global
bias. -/
theorem regSum_update (c : Fin s.paramLen → α) (j : PIdx s) (t : α) :
    regSum (Function.update c (encodeFin j) t)
      = regSum c + regInd j * (t ^ 2 - c (encodeFin j) ^ 2) := by
  cases j with
  | mu =>
      have hb : ∀ u', buV (Function.update c (encodeFin PIdx.mu) t) u'
          = buV c u' := fun u' => by rw [buV_update, if_neg (by simp)]
      have hc : ∀ i', biV (Function.update c (encodeFin PIdx.mu) t) i'
          = biV c i' := fun i' => by rw [biV_update, if_neg (by simp)]
      have hp : ∀ u' f', pV (Function.update c (encodeFin PIdx.mu) t) u' f'
          = pV c u' f' := fun u' f' => by rw [pV_update, if_neg (by simp)]
      have hq : ∀ i' f', qV (Function.update c (encodeFin PIdx.mu) t) i' f'
          = qV c i' f' := fun i' f' => by rw [qV_update, if_neg (by simp)]
      simp only [regSum, hb, hc, hp, hq, regInd]
      ring
  | bu u =>
      have hb : ∀ u', buV (Function.update c (encodeFin (PIdx.bu u)) t) u'
          = if u' = u then t else buV c u' := fun u' => by
        rw [buV_update]
        by_cases h : u' = u
        · subst h; rw [if_pos rfl, if_pos rfl]
        · rw [if_neg (by simp [h]), if_neg h]
      have hc : ∀ i', biV (Function.update c (encodeFin (PIdx.bu u)) t) i'
          = biV c i' := fun i' => by rw [biV_update, if_neg (by simp)]
      have hp : ∀ u' f', pV (Function.update c (encodeFin (PIdx.bu u)) t) u' f'
          = pV c u' f' := fun u' f' => by rw [pV_update, if_neg (by simp)]
      have hq : ∀ i' f', qV (Function.update c (encodeFin (PIdx.bu u)) t) i' f'
          = qV c i' f' := fun i' f' => by rw [qV_update, if_neg (by simp)]
      simp only [regSum, hb, hc, hp, hq, regInd]
      rw [sum_ite_sq (fun u' => buV c u') u t]
      simp only [buV]
      ring
  | bi i =>
      have hb : ∀ u', buV (Function.update c (encodeFin (PIdx.bi i)) t) u'
          = buV c u' := fun u' => by rw [buV_update, if_neg (by simp)]
      have hc : ∀ i', biV (Function.update c (encodeFin (PIdx.bi i)) t) i'
          = if i' = i then t else biV c i' := fun i' => by
        rw [biV_update]
        by_cases h : i' = i
        · subst h; rw [if_pos rfl, if_pos rfl]
        · rw [if_neg (by simp [h]), if_neg h]
      have hp : ∀ u' f', pV (Function.update c (encodeFin (PIdx.bi i)) t) u' f'
          = pV c u' f' := fun u' f' => by rw [pV_update, if_neg (by simp)]
      have hq : ∀ i' f', qV (Function.update c (encodeFin (PIdx.bi i)) t) i' f'
          = qV c i' f' := fun i' f' => by rw [qV_update, if_neg (by simp)]
      simp only [regSum, hb, hc, hp, hq, regInd]
      rw [sum_ite_sq (fun i' => biV c i') i t]
      simp only [biV]
      ring
  | p u f =>
      have hb : ∀ u', buV (Function.update c (encodeFin (PIdx.p u f)) t) u'
          = buV c u' := fun u' => by rw [buV_update, if_neg (by simp)]
      have hc : ∀ i', biV (Function.update c (encodeFin (PIdx.p u f)) t) i'
          = biV c i' := fun i' => by rw [biV_update, if_neg (by simp)]
      have hp : ∀ u' f', pV (Function.update c (encodeFin (PIdx.p u f)) t) u' f'
          = if u' = u ∧ f' = f then t else pV c u' f' := fun u' f' => by
        rw [pV_update]
        by_cases h : u' = u ∧ f' = f
        · obtain ⟨h1, h2⟩ := h
          subst h1; subst h2
          rw [if_pos rfl, if_pos ⟨rfl, rfl⟩]
        · rw [if_neg (by simpa [PIdx.p.injEq] using h), if_neg h]
      have hq : ∀ i' f', qV (Function.update c (encodeFin (PIdx.p u f)) t) i' f'
          = qV c i' f' := fun i' f' => by rw [qV_update, if_neg (by simp)]
      simp only [regSum, hb, hc, hp, hq, regInd]
      have hrow : ∀ u' : Fin s.nUsers,
          (∑ f', (if u' = u ∧ f' = f then t else pV c u' f') ^ 2)
            = (∑ f', pV c u' f' ^ 2)
              + (if u' = u then t ^ 2 - pV c u f ^ 2 else 0) := by
        intro u'
        by_cases h : u' = u
        · subst h
          have hcong : ∀ f' : Fin s.k,
              (if u' = u' ∧ f' = f then t else pV c u' f') ^ 2
                = (if f' = f then t else pV c u' f') ^ 2 := by
            intro f'
            simp
          rw [Finset.sum_congr rfl fun f' _ => hcong f',
            sum_ite_sq (fun f' => pV c u' f') f t, if_pos rfl]
        · have hcong : ∀ f' : Fin s.k,
              (if u' = u ∧ f' = f then t else pV c u' f') ^ 2
                = pV c u' f' ^ 2 := by
            intro f'
            simp [h]
          rw [Finset.sum_congr rfl fun f' _ => hcong f', if_neg h]
          ring
      rw [Finset.sum_congr rfl fun u' _ => hrow u', Finset.sum_add_distrib,
        Finset.sum_ite_eq' Finset.univ u (fun _ => t ^ 2 - pV c u f ^ 2)]
      simp only [Finset.mem_univ, if_pos, pV]
      ring
  | q i f =>
      have hb : ∀ u', buV (Function.update c (encodeFin (PIdx.q i f)) t) u'
          = buV c u' := fun u' => by rw [buV_update, if_neg (by simp)]
      have hc : ∀ i', biV (Function.update c (encodeFin (PIdx.q i f)) t) i'
          = biV c i' := fun i' => by rw [biV_update, if_neg (by simp)]
      have hp : ∀ u' f', pV (Function.update c (encodeFin (PIdx.q i f)) t) u' f'
          = pV c u' f' := fun u' f' => by rw [pV_update, if_neg (by simp)]
      have hq : ∀ i' f', qV (Function.update c (encodeFin (PIdx.q i f)) t) i' f'
          = if i' = i ∧ f' = f then t else qV c i' f' := fun i' f' => by
        rw [qV_update]
        by_cases h : i' = i ∧ f' = f
        · obtain ⟨h1, h2⟩ := h
          subst h1; subst h2
          rw [if_pos rfl, if_pos ⟨rfl, rfl⟩]
        · rw [if_neg (by simpa [PIdx.q.injEq] using h), if_neg h]
      simp only [regSum, hb, hc, hp, hq, regInd]
      have hrow : ∀ i' : Fin s.nItems,
          (∑ f', (if i' = i ∧ f' = f then t else qV c i' f') ^ 2)
            = (∑ f', qV c i' f' ^ 2)
              + (if i' = i then t ^ 2 - qV c i f ^ 2 else 0) := by
        intro i'
        by_cases h : i' = i
        · subst h
          have hcong : ∀ f' : Fin s.k,
              (if i' = i' ∧ f' = f then t else qV c i' f') ^ 2
                = (if f' = f then t else qV c i' f') ^ 2 := by
            intro f'
            simp
          rw [Finset.sum_congr rfl fun f' _ => hcong f',
            sum_ite_sq (fun f' => qV c i' f') f t, if_pos rfl]
        · have hcong : ∀ f' : Fin s.k,
              (if i' = i ∧ f' = f then t else qV c i' f') ^ 2
                = qV c i' f' ^ 2 := by
            intro f'
            simp [h]
          rw [Finset.sum_congr rfl fun f' _ => hcong f', if_neg h]
          ring
      rw [Finset.sum_congr rfl fun i' _ => hrow i', Finset.sum_add_distrib,
        Finset.sum_ite_eq' Finset.univ i (fun _ => t ^ 2 - qV c i f ^ 2)]
      simp only [Finset.mem_univ, if_pos, qV]
      ring

/-- The code's gradient component at coordinate `j`, rewritten as the
residual-slope correlation plus the regularization contribution. -/
theorem gradAt_eq (c : Fin s.paramLen → α)
    (ev : Fin nE → Fin s.nUsers × Fin s.nItems) (sc : Fin nE → α) (reg : α)
    (j : PIdx s) :
    gradAt c ev sc reg j
      = (∑ e, negRes c ev sc e * slope c j (ev e)) / (nE : α)
        + reg * regInd j * c (encodeFin j) := by
  cases j with
  | mu => simp [gradAt, slope, regInd]
  | bu u =>
      have hpt : ∀ e, (if (ev e).1 = u then negRes c ev sc e else 0)
          = negRes c ev sc e * slope c (PIdx.bu u) (ev e) := by
        intro e
        by_cases h : (ev e).1 = u <;> simp [slope, h]
      rw [show gradAt c ev sc reg (PIdx.bu u)
          = (∑ e, if (ev e).1 = u then negRes c ev sc e else 0) / (nE : α)
            + reg * buV c u from rfl,
        Finset.sum_congr rfl fun e _ => hpt e]
      simp only [buV, regInd]
      ring
  | bi i =>
      have hpt : ∀ e, (if (ev e).2 = i then negRes c ev sc e else 0)
          = negRes c ev sc e * slope c (PIdx.bi i) (ev e) := by
        intro e
        by_cases h : (ev e).2 = i <;> simp [slope, h]
      rw [show gradAt c ev sc reg (PIdx.bi i)
          = (∑ e, if (ev e).2 = i then negRes c ev sc e else 0) / (nE : α)
            + reg * biV c i from rfl,
        Finset.sum_congr rfl fun e _ => hpt e]
      simp only [biV, regInd]
      ring
  | p u f =>
      have hpt : ∀ e, (if (ev e).1 = u
            then negRes c ev sc e * qV c (ev e).2 f else 0)
          = negRes c ev sc e * slope c (PIdx.p u f) (ev e) := by
        intro e
        by_cases h : (ev e).1 = u <;> simp [slope, h]
      rw [show gradAt c ev sc reg (PIdx.p u f)
          = (∑ e, if (ev e).1 = u
              then negRes c ev sc e * qV c (ev e).2 f else 0) / (nE : α)
            + reg * pV c u f from rfl,
        Finset.sum_congr rfl fun e _ => hpt e]
      simp only [pV, regInd]
      ring
  | q i f =>
      have hpt : ∀ e, (if (ev e).2 = i
            then negRes c ev sc e * pV c (ev e).1 f else 0)
          = negRes c ev sc e * slope c (PIdx.q i f) (ev e) := by
        intro e
        by_cases h : (ev e).2 = i <;> simp [slope, h]
      rw [show gradAt c ev sc reg (PIdx.q i f)
          = (∑ e, if (ev e).2 = i
              then negRes c ev sc e * pV c (ev e).1 f else 0) / (nE : α)
            + reg * qV c i f from rfl,
        Finset.sum_congr rfl fun e _ => hpt e]
      simp only [qV, regInd]
      ring

/-- The loss restricted to one coordinate is an explicit quadratic whose
linear coefficient is twice the code's gradient component. -/
theorem loss_update (c : Fin s.paramLen → α)
    (ev : Fin nE → Fin s.nUsers × Fin s.nItems) (sc : Fin nE → α) (reg : α)
    (j : PIdx s) (t : α) :
    loss (Function.update c (encodeFin j) t) ev sc reg
      = loss c ev sc reg
        + 2 * gradAt c ev sc reg j * (t - c (encodeFin j))
        + ((∑ e, slope c j (ev e) ^ 2) / (nE : α) + reg * regInd j)
          * (t - c (encodeFin j)) ^ 2 := by
  have hsq : ∀ e, (sc e - esc (Function.update c (encodeFin j) t) (ev e)) ^ 2
      = (sc e - esc c (ev e)) ^ 2
        + 2 * (negRes c ev sc e * slope c j (ev e)) * (t - c (encodeFin j))
        + slope c j (ev e) ^ 2 * (t - c (encodeFin j)) ^ 2 := by
    intro e
    rw [esc_update]
    unfold negRes
    ring
  unfold loss
  rw [regSum_update, Finset.sum_congr rfl fun e _ => hsq e,
    Finset.sum_add_distrib, Finset.sum_add_distrib, gradAt_eq,
    ← Finset.sum_mul, ← Finset.sum_mul, ← Finset.mul_sum]
  ring

theorem grad_loss_encodeFin (c : Fin s.paramLen → α)
    (ev : Fin nE → Fin s.nUsers × Fin s.nItems) (sc : Fin nE → α) (reg : α)
    (j : PIdx s) :
    grad_loss c ev sc reg (encodeFin j) = gradAt c ev sc reg j := by
  simp [grad_loss, decode_encode]

/-- The loss, as a function of any single coordinate of the buffer, has
derivative equal to twice the component `PMF.grad_loss` computes there. -/
theorem loss_coord_hasDerivAt {s : Shape} {nE : ℕ} (c : Fin s.paramLen → ℝ)
    (ev : Fin nE → Fin s.nUsers × Fin s.nItems) (sc : Fin nE → ℝ) (reg : ℝ)
    (j : PIdx s) :
    HasDerivAt (fun t => loss (Function.update c (encodeFin j) t) ev sc reg)
      (2 * gradAt c ev sc reg j) (c (encodeFin j)) := by
  have hfun : (fun t => loss (Function.update c (encodeFin j) t) ev sc reg)
      = fun t => loss c ev sc reg
          + 2 * gradAt c ev sc reg j * (t - c (encodeFin j))
          + ((∑ e, slope c j (ev e) ^ 2) / (nE : ℝ) + reg * regInd j)
            * (t - c (encodeFin j)) ^ 2 :=
    funext fun t => loss_update c ev sc reg j t
  rw [hfun]
  set x := c (encodeFin j) with hxdef
  have h1 : HasDerivAt (fun t : ℝ => t - x) 1 x := (hasDerivAt_id x).sub_const x
  have base : HasDerivAt (fun _ : ℝ => loss c ev sc reg) 0 x :=
    hasDerivAt_const x (loss c ev sc reg)
  have lin := h1.const_mul (2 * gradAt c ev sc reg j)
  have quad := (h1.pow 2).const_mul
    ((∑ e, slope c j (ev e) ^ 2) / (nE : ℝ) + reg * regInd j)
  have total := (base.add lin).add quad
  simp only [Nat.reduceSub, pow_one, sub_self, mul_one, mul_zero, zero_mul,
    add_zero, zero_add, Nat.cast_ofNat] at total
  exact total

/-- C1 (amended): `PMF.grad_loss` returns exactly one half of the analytic
gradient of `PMF.loss`: along every coordinate of the flat buffer, the loss
has derivative `2 *` the component returned by `grad_loss`.  The structural
part of the claim (no regularization on the global bias, regularization on
every other region, event contributions scatter-accumulated per user/item)
holds of this halved gradient, but the returned vector is not the gradient
itself. -/
theorem grad_loss_is_half_gradient {s : Shape} {nE : ℕ}
    (c : Fin s.paramLen → ℝ) (ev : Fin nE → Fin s.nUsers × Fin s.nItems)
    (sc : Fin nE → ℝ) (reg : ℝ) (hnE : 0 < nE) (j : PIdx s) :
    HasDerivAt (fun t => loss (Function.update c (encodeFin j) t) ev sc reg)
      (2 * grad_loss c ev sc reg (encodeFin j)) (c (encodeFin j)) := by
  rw [grad_loss_encodeFin]
  exact loss_coord_hasDerivAt c ev sc reg j

/-! Concrete instances used by witnesses and counterexamples: one user,
one item, one latent factor. -/

/-- One-user, one-item, one-factor shape. -/
def shape1 : Shape := ⟨1, 1, 1⟩

/-- The all-zero real buffer for `shape1`. -/
def cR : Fin shape1.paramLen → ℝ := fun _ => 0

/-- A single event `(user 0, item 0)` for `shape1`, over ℝ. -/
def evR : Fin 1 → Fin shape1.nUsers × Fin shape1.nItems :=
  fun _ => (⟨0, Nat.one_pos⟩, ⟨0, Nat.one_pos⟩)

/-- The single observed score `1`, over ℝ. -/
def scR : Fin 1 → ℝ := fun _ => 1

/-- C1 witness: the amended theorem applied at the concrete instance. -/
theorem grad_loss_is_half_gradient_witness :
    0 < 1 ∧
    HasDerivAt
      (fun t => loss (Function.update cR (encodeFin PIdx.mu) t) evR scR 1)
      (2 * grad_loss cR evR scR 1 (encodeFin PIdx.mu))
      (cR (encodeFin PIdx.mu)) :=
  ⟨Nat.one_pos, grad_loss_is_half_gradient cR evR scR 1 Nat.one_pos PIdx.mu⟩

/-- C1 counterexample: on the one-event instance with zero buffer and
score `1`, the derivative of the loss in the global-bias coordinate is
`-2`, while `grad_loss` returns `-1` there — the returned vector is not
the analytic gradient of the loss. -/
theorem grad_loss_exact_gradient_cex :
    deriv
        (fun t => loss (Function.update cR (encodeFin PIdx.mu) t) evR scR 1)
        (cR (encodeFin PIdx.mu))
      ≠ grad_loss cR evR scR 1 (encodeFin PIdx.mu) := by
  rw [(loss_coord_hasDerivAt cR evR scR 1 PIdx.mu).deriv, grad_loss_encodeFin]
  have hesc : esc cR (evR 0) = 0 := by
    simp [esc, muV, buV, biV, pV, qV, cR]
  have hg : gradAt cR evR scR 1 PIdx.mu = -1 := by
    simp [gradAt, negRes, hesc, scR]
  rw [hg]
  norm_num

/-- C2: for every buffer, non-empty event batch and score array,
`PMF.loss` returns exactly the specification's formula: mean squared
residual of the additive-plus-bilinear prediction plus `reg_scale` times
the sum of squares of user biases, item biases, user factors and item
factors, with the global bias excluded from regularization. -/
theorem loss_matches_spec {s : Shape} {nE : ℕ} {α : Type} [Field α]
    (c : Fin s.paramLen → α) (ev : Fin nE → Fin s.nUsers × Fin s.nItems)
    (sc : Fin nE → α) (reg : α) (hnE : 0 < nE) :
    loss c ev sc reg = lossSpec (view c) ev sc reg := rfl

/-- The all-zero rational buffer for `shape1`. -/
def cQ : Fin shape1.paramLen → ℚ := fun _ => 0

/-- A single event `(user 0, item 0)` for `shape1`, over ℚ. -/
def evQ : Fin 1 → Fin shape1.nUsers × Fin shape1.nItems :=
  fun _ => (⟨0, Nat.one_pos⟩, ⟨0, Nat.one_pos⟩)

/-- The single observed score `1`, over ℚ. -/
def scQ : Fin 1 → ℚ := fun _ => 1

/-- C2 witness. -/
theorem loss_matches_spec_witness :
    0 < 1 ∧ loss cQ evQ scQ 1 = lossSpec (view cQ) evQ scQ 1 :=
  ⟨Nat.one_pos, loss_matches_spec cQ evQ scQ 1 Nat.one_pos⟩

/-- C9: the flat buffer of length
`1 + n_users + n_items + k*n_users + k*n_items` decomposes into the five
contiguous regions in the fixed order global bias, user biases, item
biases, user factors (row-major), item factors (row-major): encoding and
decoding of coordinates are mutually inverse, writing through one named
coordinate is read back identically at its flat offset, a write at one
coordinate is invisible at every other coordinate, and the region offsets
are the computed ones. -/
theorem layout_roundtrip (s : Shape) {α : Type} :
    (s.paramLen
        = 1 + s.nUsers + s.nItems + s.k * s.nUsers + s.k * s.nItems)
    ∧ (∀ j : PIdx s, decode (encodeFin j) = j)
    ∧ (∀ x : Fin s.paramLen, encodeFin (decode x) = x)
    ∧ (∀ (c : Fin s.paramLen → α) (j j' : PIdx s) (t : α),
        Function.update c (encodeFin j) t (encodeFin j')
          = if j' = j then t else c (encodeFin j'))
    ∧ encode (PIdx.mu : PIdx s) = 0
    ∧ (∀ u : Fin s.nUsers, encode (PIdx.bu u) = 1 + u)
    ∧ (∀ i : Fin s.nItems, encode (PIdx.bi i) = 1 + s.nUsers + i)
    ∧ (∀ (u : Fin s.nUsers) (f : Fin s.k),
        encode (PIdx.p u f) = 1 + s.nUsers + s.nItems + u * s.k + f)
    ∧ (∀ (i : Fin s.nItems) (f : Fin s.k),
        encode (PIdx.q i f)
          = 1 + s.nUsers + s.nItems + s.nUsers * s.k + i * s.k + f) := by
  refine ⟨by rw [Shape.paramLen]; ring, decode_encode, encode_decode,
    fun c j j' t => update_encodeFin c j j' t, rfl, fun u => rfl,
    fun i => rfl, fun u f => ?_, fun i f => ?_⟩
  · simp only [encode, Shape.pOfs]
    omega
  · simp only [encode, Shape.qOfs]
    omega

/-! ## Initializer (`PMF._init_coef`) -/

/-- Float division by an event count: a zero count makes numpy return a
non-finite value (NaN from `0/0`, or an infinity), modelled as `none`. -/
def qdiv (a : ℚ) (n : ℕ) : Option ℚ :=
  if n = 0 then none else some (a / n)

/-- Arithmetic mean of a list of scores. -/
def listMean (l : List ℚ) : ℚ := l.sum / l.length

/-- Source line `self.mu_[0] = np.sum(sc) / n_events`, with `n_events = ev.shape[0]`. -/
def initMu (ev : List (ℕ × ℕ)) (sc : List ℚ) : Option ℚ :=
  qdiv sc.sum ev.length

/-- The scores of the events whose user index is `u` (the selection
`j = np.nonzero(ev[:, 0] == i)[0]` of `_init_coef`). -/
def userEvents (ev : List (ℕ × ℕ)) (sc : List ℚ) (u : ℕ) : List ℚ :=
  ((ev.zip sc).filter (fun es => es.1.1 == u)).map (fun es => es.2)

/-- The (user index, score) pairs of the events whose item index is `i`
(the selection `j = np.nonzero(ev[:, 1] == i)[0]`). -/
def itemEvents (ev : List (ℕ × ℕ)) (sc : List ℚ) (i : ℕ) : List (ℕ × ℚ) :=
  ((ev.zip sc).filter (fun es => es.1.2 == i)).map (fun es => (es.1.1, es.2))

/-- Source line `self.bu_[i] = np.sum(sc[j] - self.mu_[0]) / len(j)` when `len(j) > 0`;
the buffer entry keeps its zero initialisation otherwise. -/
def initBu (ev : List (ℕ × ℕ)) (sc : List ℚ) (m : ℚ) (u : ℕ) : ℚ :=
  let usc := userEvents ev sc u
  if usc.length = 0 then 0
  else (usc.map (fun r => r - m)).sum / usc.length

/-- Source line `self.bi_[i] = np.sum(sc[j] - (self.mu_[0] + self.bu_[ev[j, 0]])) / len(j)`
when `len(j) > 0`; zero otherwise.  `bu` is the user-bias vector that was
initialised just before. -/
def initBi (ev : List (ℕ × ℕ)) (sc : List ℚ) (m : ℚ) (bu : ℕ → ℚ)
    (i : ℕ) : ℚ :=
  let isc := itemEvents ev sc i
  if isc.length = 0 then 0
  else (isc.map (fun ur => ur.2 - (m + bu ur.1))).sum / isc.length

/-- Source line `self._reg = self.C / (1 + (k + 1) * (n_users + n_items))`. -/
def regScale (C : ℚ) (s : Shape) : ℚ :=
  C / (1 + (s.k + 1) * (s.nUsers + s.nItems))

/-- Spec-side regularization scale:
`C / (1 + (k+1) × (n_users + n_items))`, transcribed from §4.2 step 6 of
the specification. -/
def regScaleSpec (C : ℚ) (k nU nI : ℕ) : ℚ :=
  C / (1 + (k + 1) * (nU + nI))

/-- The initializer's single failure mode.  With zero events, line 192 of
the source, `var /= n_events`, divides the builtin Python float `0.0` by
the int `0` and raises `ZeroDivisionError` — the fatal zero-events
failure that the specification's error taxonomy names
`EmptyTrainingSet`. -/
inductive InitError where
  | emptyTrainingSet
deriving DecidableEq

/-- Builtin Python float division, as in `var /= n_events` (line 192): a
zero divisor raises (`ZeroDivisionError`).  Contrast `qdiv`, the numpy
scalar division of line 174, which returns a non-finite value instead of
raising. -/
def pydiv (a : ℚ) (n : ℕ) : Except InitError ℚ :=
  if n = 0 then Except.error InitError.emptyTrainingSet
  else Except.ok (a / n)

/-- Residual-variance numerator of `_init_coef` (lines 187-191): `var`
starts as the builtin float `0.0` and accumulates
`(sc[i] - (mu_[0] + bu_[ev[i, 0]] + bi_[ev[i, 1]])) ** 2` over all
events; an empty event list leaves it `0.0`. -/
def residualSq (ev : List (ℕ × ℕ)) (sc : List ℚ) (m : ℚ)
    (bu bi : ℕ → ℚ) : ℚ :=
  ((ev.zip sc).map
    (fun es => (es.2 - (m + bu es.1.1 + bi es.1.2)) ^ 2)).sum

/-- The initializer's state after a successful `PMF._init_coef`: global
bias (a numpy value, non-finite-able, hence `Option`), bias vectors,
residual variance, regularization scale. -/
structure InitResult where
  mu : Option ℚ
  bu : ℕ → ℚ
  bi : ℕ → ℚ
  var : ℚ
  reg : ℚ

/-- Source `PMF._init_coef` viewed as fallible code.  The global bias and
the bias vectors are computed first without raising (numpy division of
line 174 yields NaN on `0/0`, and a user or item with no events keeps its
zero entry); then `var /= n_events` (line 192) raises exactly when
`n_events = 0`, before any optimization is attempted; on success the
factor draws and `self._reg` follow.  The `getD 0` default is only read
through `initBu`/`initBi` when a user or item has events, which forces
`initMu` to be `some`. -/
def initCoef (C : ℚ) (s : Shape) (ev : List (ℕ × ℕ)) (sc : List ℚ) :
    Except InitError InitResult :=
  let m := (initMu ev sc).getD 0
  let bu := initBu ev sc m
  let bi := initBi ev sc m bu
  (pydiv (residualSq ev sc m bu bi) ev.length).map
    (fun v => ⟨initMu ev sc, bu, bi, v, regScale C s⟩)

/-- The record `initCoef` returns on a non-empty batch. -/
def initResultOf (C : ℚ) (s : Shape) (ev : List (ℕ × ℕ))
    (sc : List ℚ) : InitResult :=
  let m := (initMu ev sc).getD 0
  let bu := initBu ev sc m
  let bi := initBi ev sc m bu
  ⟨initMu ev sc, bu, bi, residualSq ev sc m bu bi / ev.length,
    regScale C s⟩

theorem initCoef_ok (C : ℚ) (s : Shape) (ev : List (ℕ × ℕ))
    (sc : List ℚ) (hev : ev ≠ []) :
    initCoef C s ev sc = Except.ok (initResultOf C s ev sc) := by
  have hne : ev.length ≠ 0 := by simpa using hev
  simp only [initCoef, initResultOf, pydiv, if_neg hne, Except.map]

/-- C3: with at least one event, the initializer sets the global bias to
the mean of all scores; each user with at least one event gets the mean
over the user's events of (score − global bias) and users with no events
keep bias 0; each item with at least one event gets the mean over the
item's events of (score − global bias − user bias of the event's user)
and items with no events keep bias 0. -/
theorem init_bias_means (ev : List (ℕ × ℕ)) (sc : List ℚ)
    (hne : ev ≠ []) (hlen : sc.length = ev.length) :
    initMu ev sc = some (listMean sc)
    ∧ (∀ u, userEvents ev sc u ≠ [] →
        initBu ev sc (listMean sc) u
          = listMean ((userEvents ev sc u).map (fun r => r - listMean sc)))
    ∧ (∀ u, userEvents ev sc u = [] → initBu ev sc (listMean sc) u = 0)
    ∧ (∀ i, itemEvents ev sc i ≠ [] →
        initBi ev sc (listMean sc) (initBu ev sc (listMean sc)) i
          = listMean ((itemEvents ev sc i).map
              (fun ur => ur.2 - listMean sc
                - initBu ev sc (listMean sc) ur.1)))
    ∧ (∀ i, itemEvents ev sc i = [] →
        initBi ev sc (listMean sc) (initBu ev sc (listMean sc)) i = 0) := by
  refine ⟨?_, fun u hu => ?_, fun u hu => ?_, fun i hi => ?_, fun i hi => ?_⟩
  · rw [initMu, qdiv, if_neg (by simpa using hne), listMean, hlen]
  · rw [initBu]
    rw [if_neg (by simpa using hu)]
    simp only [listMean, List.length_map]
  · rw [initBu, if_pos (by simpa using hu)]
  · rw [initBi]
    rw [if_neg (by simpa using hi)]
    have hfun : (fun ur : ℕ × ℚ => ur.2 - (listMean sc
          + initBu ev sc (listMean sc) ur.1))
        = fun ur : ℕ × ℚ => ur.2 - listMean sc
          - initBu ev sc (listMean sc) ur.1 :=
      funext fun ur => by ring
    rw [hfun]
    simp only [listMean, List.length_map]
  · rw [initBi, if_pos (by simpa using hi)]

/-- The concrete two-event batch used by initializer witnesses. -/
def ev0 : List (ℕ × ℕ) := [(0, 0), (0, 1)]

/-- The concrete scores for `ev0`. -/
def sc0 : List ℚ := [3, 1]

/-- C3 witness. -/
theorem init_bias_means_witness :
    ev0 ≠ [] ∧ initMu ev0 sc0 = some (listMean sc0) :=
  ⟨by decide, (init_bias_means ev0 sc0 (by decide) rfl).1⟩

/-- C7: calling the initializer with zero events fails before any
optimization is attempted — with `n_events = 0` the builtin-float
division `var /= n_events` raises (Python `ZeroDivisionError`, the fatal
zero-events failure the specification names `EmptyTrainingSet`) — while
every non-empty batch initialises successfully. -/
theorem init_empty_fails (C : ℚ) (s : Shape) (ev : List (ℕ × ℕ))
    (sc : List ℚ) :
    (ev = [] → initCoef C s ev sc = Except.error InitError.emptyTrainingSet)
    ∧ (ev ≠ [] → (initCoef C s ev sc).isOk = true) := by
  constructor
  · intro h
    subst h
    rfl
  · intro h
    rw [initCoef_ok C s ev sc h]
    rfl

/-- C7 witness. -/
theorem init_empty_fails_witness :
    initCoef 1 shape1 [] [] = Except.error InitError.emptyTrainingSet
    ∧ (initCoef 1 shape1 ev0 sc0).isOk = true :=
  ⟨(init_empty_fails 1 shape1 [] []).1 rfl,
   (init_empty_fails 1 shape1 ev0 sc0).2 (by decide)⟩

/-- C8: the regularization scale stored by the initializer, and the
factor the loss evaluator multiplies the regularization sum by, both
equal `C / (1 + (k+1) × (n_users + n_items))`. -/
theorem reg_scale_formula (C : ℚ) (s : Shape) {nE : ℕ}
    (c : Fin s.paramLen → ℚ) (ev : Fin nE → Fin s.nUsers × Fin s.nItems)
    (sc : Fin nE → ℚ) (evl : List (ℕ × ℕ)) (scl : List ℚ)
    (hev : evl ≠ []) :
    (∃ res, initCoef C s evl scl = Except.ok res
        ∧ res.reg = regScaleSpec C s.k s.nUsers s.nItems)
    ∧ loss c ev sc (regScale C s)
      = (∑ e, (sc e - esc c (ev e)) ^ 2) / (nE : ℚ)
        + regScaleSpec C s.k s.nUsers s.nItems * regSum c :=
  ⟨⟨initResultOf C s evl scl, initCoef_ok C s evl scl hev, rfl⟩, rfl⟩

/-- C8 witness. -/
theorem reg_scale_formula_witness :
    ev0 ≠ []
    ∧ (∃ res, initCoef 1 shape1 ev0 sc0 = Except.ok res
        ∧ res.reg = regScaleSpec 1 shape1.k shape1.nUsers shape1.nItems) :=
  ⟨by decide,
   (reg_scale_formula 1 shape1 cQ evQ scQ ev0 sc0 (by decide)).1⟩

/-- The specification's error vocabulary for configuration checking. -/
inductive ConfigError where
  | invalidConfiguration
deriving DecidableEq

/-- The hyper-parameters stored by `PMF.__init__`. -/
structure PMFConfig where
  C : ℚ
  k : ℤ
  tol : Option ℚ
  maxiter : ℕ
deriving DecidableEq

/-- Source `PMF.__init__` viewed as fallible code: the source converts and
stores `C`, `k`, `tol`, `maxiter` and performs no validation of `k`
(nor does `_init_coef` later check `n_users`/`n_items`), so construction
never fails. -/
def pmfNew (C : ℚ) (k : ℤ) (tol : Option ℚ) (maxiter : ℕ) :
    Except ConfigError PMFConfig :=
  Except.ok ⟨C, k, tol, maxiter⟩

/-- C6 (code bug): constructing the model with `k = 0` — illegal per the
specification and per the repository's own test, which expects
`ValueError` from `EventScorePredictor(C=0.1, k=0)` — succeeds instead of
failing with `InvalidConfiguration`. -/
theorem pmf_new_accepts_k_zero :
    pmfNew 1 0 none 200 = Except.ok ⟨1, 0, none, 200⟩ := rfl

/-! ## Fitted model and predictor (`PMF.fit` post-processing,
`PMF.raw_predict`, `BaseEventRecommender.predict`) -/

/-- The fitted model: the five parameter tensors kept by `PMF.fit`. -/
structure Fitted where
  mu : ℚ
  bu : List ℚ
  bi : List ℚ
  p : List (List ℚ)
  q : List (List ℚ)

/-- numpy integer indexing along the first axis: indices in `[0, len)`
read directly, indices in `[-len, 0)` wrap around from the end, anything
else is an `IndexError` (`none`). -/
def npIndex {β : Type} (a : List β) (i : ℤ) : Option β :=
  if 0 ≤ i ∧ i < (a.length : ℤ) then a[i.toNat]?
  else if -(a.length : ℤ) ≤ i ∧ i < 0 then a[(i + a.length).toNat]?
  else none

/-- The dot product `np.sum(pu * qi)` over two factor rows. -/
def dotL (xs ys : List ℚ) : ℚ := (List.zipWith (fun a b => a * b) xs ys).sum

/-- Source `PMF.raw_predict` on one internal-id event:
`mu_[0] + bu_[u] + bi_[i] + np.sum(p_[u, :] * q_[i, :])`, with numpy
indexing semantics for every tensor access. -/
def rawPredict (m : Fitted) (u i : ℤ) : Option ℚ :=
  (npIndex m.bu u).bind fun buv =>
    (npIndex m.bi i).bind fun biv =>
      (npIndex m.p u).bind fun pu =>
        (npIndex m.q i).bind fun qi =>
          some (m.mu + buv + biv + dotL pu qi)

/-- The fallback-row appending at the end of `PMF.fit`:
`self.bu_ = np.r_[bu, 0.0]`, `self.bi_ = np.r_[bi, 0.0]`,
`self.p_ = np.r_[p, np.zeros((1, k))]`,
`self.q_ = np.r_[q, np.zeros((1, k))]`; the global bias is copied
unchanged. -/
def postProcess (k : ℕ) (mu : ℚ) (bu bi : List ℚ)
    (p q : List (List ℚ)) : Fitted :=
  ⟨mu, bu ++ [0], bi ++ [0],
   p ++ [List.replicate k 0], q ++ [List.replicate k 0]⟩

theorem npIndex_nat {β : Type} (a : List β) (n : ℕ) (h : n < a.length) :
    npIndex a (n : ℤ) = a[n]? := by
  rw [npIndex, if_pos (by constructor <;> omega)]
  simp

theorem npIndex_ge {β : Type} (a : List β) (i : ℤ)
    (h : (a.length : ℤ) ≤ i) : npIndex a i = none := by
  rw [npIndex, if_neg (by omega), if_neg (by omega)]

theorem npIndex_low {β : Type} (a : List β) (i : ℤ)
    (h : i < -(a.length : ℤ)) : npIndex a i = none := by
  rw [npIndex, if_neg (by omega), if_neg (by omega)]

theorem npIndex_neg_one {β : Type} (a : List β) (n : ℕ)
    (h : a.length = n + 1) :
    npIndex a (-1) = npIndex a (n : ℤ) := by
  have hL : (a.length : ℤ) = (n : ℤ) + 1 := by exact_mod_cast h
  rw [npIndex, npIndex, if_neg (by omega), if_pos (by constructor <;> omega),
    if_pos (by constructor <;> omega)]
  congr 1
  omega

theorem dotL_replicate_zero (ys : List ℚ) (k : ℕ) :
    dotL (List.replicate k 0) ys = 0 := by
  induction k generalizing ys with
  | zero => rfl
  | succ k ih =>
      cases ys with
      | nil => rfl
      | cons y ys =>
          rw [dotL, List.replicate_succ, List.zipWith_cons_cons, List.sum_cons]
          rw [show (List.zipWith (fun a b => a * b) (List.replicate k 0) ys).sum
              = dotL (List.replicate k 0) ys from rfl, ih ys]
          ring

theorem getElem?_append_right_last (l : List ℚ) (n : ℕ) (h : l.length = n) :
    (l ++ [(0 : ℚ)])[n]? = some 0 := by
  rw [List.getElem?_append, if_neg (by omega)]
  subst h
  simp

theorem getElem?_row_append_last (l : List (List ℚ)) (n : ℕ) (k : ℕ)
    (h : l.length = n) :
    (l ++ [List.replicate k (0 : ℚ)])[n]? = some (List.replicate k 0) := by
  rw [List.getElem?_append, if_neg (by omega)]
  subst h
  simp

theorem dotL_replicate_zero_right (xs : List ℚ) (k : ℕ) :
    dotL xs (List.replicate k 0) = 0 := by
  induction xs generalizing k with
  | nil => rfl
  | cons x xs ih =>
      cases k with
      | zero => rfl
      | succ k =>
          rw [dotL, List.replicate_succ, List.zipWith_cons_cons,
            List.sum_cons]
          rw [show (List.zipWith (fun a b => a * b) xs
                (List.replicate k 0)).sum
              = dotL xs (List.replicate k 0) from rfl, ih k]
          ring

/-- C4: after a successful fit, exactly one zero fallback row is appended
to each of the user-bias, item-bias, user-factor and item-factor tensors
(not to the global bias), and predicting at the fallback sentinel index
(`n_users` for a user, `n_items` for an item) yields the global bias plus
the other side's bias: the factor cross term vanishes because the
fallback factor row is all zeros. -/
theorem fallback_rows (k : ℕ) (mu : ℚ) (bu bi : List ℚ)
    (p q : List (List ℚ)) (nU nI : ℕ)
    (hbu : bu.length = nU) (hbi : bi.length = nI)
    (hp : p.length = nU) (hq : q.length = nI) :
    (postProcess k mu bu bi p q).mu = mu
    ∧ (postProcess k mu bu bi p q).bu = bu ++ [0]
    ∧ (postProcess k mu bu bi p q).bi = bi ++ [0]
    ∧ (postProcess k mu bu bi p q).p = p ++ [List.replicate k 0]
    ∧ (postProcess k mu bu bi p q).q = q ++ [List.replicate k 0]
    ∧ (postProcess k mu bu bi p q).bu.length = nU + 1
    ∧ (∀ i : ℕ, i < nI →
        rawPredict (postProcess k mu bu bi p q) (nU : ℤ) (i : ℤ)
          = some (mu + bi.getD i 0))
    ∧ (∀ u : ℕ, u < nU →
        rawPredict (postProcess k mu bu bi p q) (u : ℤ) (nI : ℤ)
          = some (mu + bu.getD u 0)) := by
  have h1 : npIndex (bu ++ [0]) ((nU : ℕ) : ℤ) = some 0 := by
    rw [npIndex_nat _ nU (by rw [List.length_append, hbu]; exact Nat.lt_succ_self nU)]
    exact getElem?_append_right_last bu nU hbu
  have h1i : npIndex (bi ++ [0]) ((nI : ℕ) : ℤ) = some 0 := by
    rw [npIndex_nat _ nI (by rw [List.length_append, hbi]; exact Nat.lt_succ_self nI)]
    exact getElem?_append_right_last bi nI hbi
  have h3 : npIndex (p ++ [List.replicate k 0]) ((nU : ℕ) : ℤ)
      = some (List.replicate k 0) := by
    rw [npIndex_nat _ nU (by rw [List.length_append, hp]; exact Nat.lt_succ_self nU)]
    exact getElem?_row_append_last p nU k hp
  have h3i : npIndex (q ++ [List.replicate k 0]) ((nI : ℕ) : ℤ)
      = some (List.replicate k 0) := by
    rw [npIndex_nat _ nI (by rw [List.length_append, hq]; exact Nat.lt_succ_self nI)]
    exact getElem?_row_append_last q nI k hq
  refine ⟨rfl, rfl, rfl, rfl, rfl,
    by rw [postProcess, List.length_append, hbu]; exact rfl,
    fun i hilt => ?_, fun u hult => ?_⟩
  · have hbi' : i < bi.length := by omega
    have h2 : npIndex (bi ++ [0]) ((i : ℕ) : ℤ) = some (bi.getD i 0) := by
      rw [npIndex_nat _ i (by rw [List.length_append]; omega),
        List.getElem?_append, if_pos hbi', List.getElem?_eq_getElem hbi',
        List.getD_eq_getElem?_getD, List.getElem?_eq_getElem hbi']
      rfl
    have hq' : i < q.length := by omega
    have h4 : npIndex (q ++ [List.replicate k 0]) ((i : ℕ) : ℤ)
        = some q[i] := by
      rw [npIndex_nat _ i (by rw [List.length_append]; omega),
        List.getElem?_append, if_pos hq', List.getElem?_eq_getElem hq']
    simp only [rawPredict, postProcess, h1, h2, h3, h4]
    simp [dotL_replicate_zero]
  · have hbu' : u < bu.length := by omega
    have h2 : npIndex (bu ++ [0]) ((u : ℕ) : ℤ) = some (bu.getD u 0) := by
      rw [npIndex_nat _ u (by rw [List.length_append]; omega),
        List.getElem?_append, if_pos hbu', List.getElem?_eq_getElem hbu',
        List.getD_eq_getElem?_getD, List.getElem?_eq_getElem hbu']
      rfl
    have hp' : u < p.length := by omega
    have h4 : npIndex (p ++ [List.replicate k 0]) ((u : ℕ) : ℤ)
        = some p[u] := by
      rw [npIndex_nat _ u (by rw [List.length_append]; omega),
        List.getElem?_append, if_pos hp', List.getElem?_eq_getElem hp']
    simp only [rawPredict, postProcess, h2, h1i, h4, h3i]
    simp [dotL_replicate_zero_right]

/-- Concrete fitted model (one user, one item, one factor) with fallback
rows appended: `mu = 2`, `bu = [3, 0]`, `bi = [5, 0]`, `p = [[7], [0]]`,
`q = [[11], [0]]`. -/
def m0 : Fitted := postProcess 1 2 [3] [5] [[7]] [[11]]

/-- C4 witness. -/
theorem fallback_rows_witness :
    ([(3 : ℚ)].length = 1)
    ∧ rawPredict (postProcess 1 2 [3] [5] [[7]] [[11]]) 1 0
        = some (2 + [(5 : ℚ)].getD 0 0) :=
  ⟨rfl,
   (fallback_rows 1 2 [3] [5] [[7]] [[11]] 1 1 rfl rfl rfl rfl).2.2.2.2.2.2.1
     0 (by decide)⟩

/-- C5 (amended): for a fitted model, an internal index strictly greater
than the fallback sentinel, or below `-(sentinel + 1)`, fails with an
index error; but a negative index does not in general fail: numpy wraps
negative indices around, so `raw_predict` at `-1` equals `raw_predict` at
the sentinel (the fallback row) instead of raising. -/
theorem raw_predict_range (m : Fitted) (nU : ℕ)
    (hbu : m.bu.length = nU + 1) (hp : m.p.length = nU + 1) :
    (∀ u i : ℤ, (nU : ℤ) < u → rawPredict m u i = none)
    ∧ (∀ u i : ℤ, u < -((nU : ℤ) + 1) → rawPredict m u i = none)
    ∧ (∀ i : ℤ, rawPredict m (-1) i = rawPredict m (nU : ℤ) i) := by
  have hbuL : (m.bu.length : ℤ) = (nU : ℤ) + 1 := by exact_mod_cast hbu
  have hpL : (m.p.length : ℤ) = (nU : ℤ) + 1 := by exact_mod_cast hp
  refine ⟨fun u i hu => ?_, fun u i hu => ?_, fun i => ?_⟩
  · rw [rawPredict, npIndex_ge m.bu u (by omega)]
    rfl
  · rw [rawPredict, npIndex_low m.bu u (by omega)]
    rfl
  · rw [rawPredict, rawPredict, npIndex_neg_one m.bu nU hbu,
      npIndex_neg_one m.p nU hp]

/-- C5 witness: out-of-range rejection above the sentinel, and the
wrapped value of index `-1`, on the concrete fitted model `m0`. -/
theorem raw_predict_range_witness :
    m0.bu.length = 1 + 1 ∧ rawPredict m0 2 0 = none
    ∧ rawPredict m0 (-1) 0 = rawPredict m0 1 0 :=
  ⟨rfl, (raw_predict_range m0 1 rfl rfl).1 2 0 (by decide),
   (raw_predict_range m0 1 rfl rfl).2.2 0⟩

/-- C5 counterexample: `raw_predict` at the negative internal index `-1`
does not fail — numpy wraps it onto the fallback row, so the claim that a
negative index raises `IndexOutOfRange` is false. -/
theorem raw_predict_neg_index_cex : rawPredict m0 (-1) 0 ≠ none := by
  decide

/-- Source `EventUtilMixin.to_iid_event` for one external id:
`self.iid[otype].get(eid, missing_values[otype])` where the default
`missing_values` is `n_objects[otype]`, the fallback sentinel. -/
def toIid (iid : List (ℤ × ℕ)) (df : ℕ) (e : ℤ) : ℕ :=
  (iid.lookup e).getD df

/-- Source `BaseEventRecommender.predict`: convert the external-id event through
`to_iid_event` and call `raw_predict` on the resulting internal ids. -/
def predictExt (model : Fitted) (umap imap : List (ℤ × ℕ)) (nU nI : ℕ)
    (eu ei : ℤ) : Option ℚ :=
  rawPredict model (toIid umap nU eu : ℤ) (toIid imap nI ei : ℤ)

/-- Prediction at the user sentinel index against any item index up to
the item sentinel: the fallback user row contributes zero bias and a zero
factor row, leaving the global bias plus the item-side bias. -/
theorem rawPredict_sentinel_user (k : ℕ) (mu : ℚ) (bu bi : List ℚ)
    (p q : List (List ℚ)) (nU nI : ℕ)
    (hbu : bu.length = nU) (hbi : bi.length = nI)
    (hp : p.length = nU) (hq : q.length = nI) (j : ℕ) (hj : j ≤ nI) :
    rawPredict (postProcess k mu bu bi p q) (nU : ℤ) (j : ℤ)
      = some (mu + (bi ++ [0]).getD j 0) := by
  have h1 : npIndex (bu ++ [0]) ((nU : ℕ) : ℤ) = some 0 := by
    rw [npIndex_nat _ nU (by rw [List.length_append, hbu]; exact Nat.lt_succ_self nU)]
    exact getElem?_append_right_last bu nU hbu
  have h3 : npIndex (p ++ [List.replicate k 0]) ((nU : ℕ) : ℤ)
      = some (List.replicate k 0) := by
    rw [npIndex_nat _ nU (by rw [List.length_append, hp]; exact Nat.lt_succ_self nU)]
    exact getElem?_row_append_last p nU k hp
  have hlen2 : j < (bi ++ [0]).length := by
    simp [hbi]
    omega
  have h2 : npIndex (bi ++ [0]) ((j : ℕ) : ℤ)
      = some ((bi ++ [0]).getD j 0) := by
    rw [npIndex_nat _ _ hlen2, List.getElem?_eq_getElem hlen2,
      List.getD_eq_getElem?_getD, List.getElem?_eq_getElem hlen2]
    rfl
  have hlen4 : j < (q ++ [List.replicate k 0]).length := by
    simp [hq]
    omega
  have h4 : npIndex (q ++ [List.replicate k 0]) ((j : ℕ) : ℤ)
      = some (q ++ [List.replicate k 0])[j] := by
    rw [npIndex_nat _ _ hlen4, List.getElem?_eq_getElem hlen4]
  simp only [rawPredict, postProcess, h1, h2, h3, h4]
  simp [dotL_replicate_zero]

/-- Prediction at the item sentinel index against any user index up to
the user sentinel: symmetric to `rawPredict_sentinel_user`. -/
theorem rawPredict_sentinel_item (k : ℕ) (mu : ℚ) (bu bi : List ℚ)
    (p q : List (List ℚ)) (nU nI : ℕ)
    (hbu : bu.length = nU) (hbi : bi.length = nI)
    (hp : p.length = nU) (hq : q.length = nI) (j : ℕ) (hj : j ≤ nU) :
    rawPredict (postProcess k mu bu bi p q) (j : ℤ) (nI : ℤ)
      = some (mu + (bu ++ [0]).getD j 0) := by
  have h1 : npIndex (bi ++ [0]) ((nI : ℕ) : ℤ) = some 0 := by
    rw [npIndex_nat _ nI (by rw [List.length_append, hbi]; exact Nat.lt_succ_self nI)]
    exact getElem?_append_right_last bi nI hbi
  have h3 : npIndex (q ++ [List.replicate k 0]) ((nI : ℕ) : ℤ)
      = some (List.replicate k 0) := by
    rw [npIndex_nat _ nI (by rw [List.length_append, hq]; exact Nat.lt_succ_self nI)]
    exact getElem?_row_append_last q nI k hq
  have hlen2 : j < (bu ++ [0]).length := by
    simp [hbu]
    omega
  have h2 : npIndex (bu ++ [0]) ((j : ℕ) : ℤ)
      = some ((bu ++ [0]).getD j 0) := by
    rw [npIndex_nat _ _ hlen2, List.getElem?_eq_getElem hlen2,
      List.getD_eq_getElem?_getD, List.getElem?_eq_getElem hlen2]
    rfl
  have hlen4 : j < (p ++ [List.replicate k 0]).length := by
    simp [hp]
    omega
  have h4 : npIndex (p ++ [List.replicate k 0]) ((j : ℕ) : ℤ)
      = some (p ++ [List.replicate k 0])[j] := by
    rw [npIndex_nat _ _ hlen4, List.getElem?_eq_getElem hlen4]
  simp only [rawPredict, postProcess, h2, h1, h4, h3]
  simp [dotL_replicate_zero_right]

/-- C10: an external id never seen during training — user or item — is
converted to the fallback sentinel internal index (the object count)
rather than raising, so prediction on a fitted model returns the
fallback-row score (global bias plus the other side's bias) instead of
failing: with an unknown user the result is `mu + item bias`, with an
unknown item it is `mu + user bias`.  The two bound hypotheses say the id
maps send known ids to internal indices no larger than the sentinel, as
the training pipeline guarantees. -/
theorem unknown_eid_uses_fallback (k : ℕ) (mu : ℚ) (bu bi : List ℚ)
    (p q : List (List ℚ)) (nU nI : ℕ) (umap imap : List (ℤ × ℕ))
    (eu ei : ℤ)
    (hbu : bu.length = nU) (hbi : bi.length = nI)
    (hp : p.length = nU) (hq : q.length = nI)
    (hju : toIid umap nU eu ≤ nU) (hji : toIid imap nI ei ≤ nI) :
    (umap.lookup eu = none → toIid umap nU eu = nU)
    ∧ (imap.lookup ei = none → toIid imap nI ei = nI)
    ∧ (umap.lookup eu = none →
        predictExt (postProcess k mu bu bi p q) umap imap nU nI eu ei
          = some (mu + (bi ++ [0]).getD (toIid imap nI ei) 0))
    ∧ (imap.lookup ei = none →
        predictExt (postProcess k mu bu bi p q) umap imap nU nI eu ei
          = some (mu + (bu ++ [0]).getD (toIid umap nU eu) 0)) := by
  refine ⟨fun hu => by rw [toIid, hu]; rfl,
    fun hi => by rw [toIid, hi]; rfl, fun hu => ?_, fun hi => ?_⟩
  · rw [predictExt, show toIid umap nU eu = nU from by rw [toIid, hu]; rfl]
    exact rawPredict_sentinel_user k mu bu bi p q nU nI hbu hbi hp hq _ hji
  · rw [predictExt, show toIid imap nI ei = nI from by rw [toIid, hi]; rfl]
    exact rawPredict_sentinel_item k mu bu bi p q nU nI hbu hbi hp hq _ hju

/-- C10 witness: external user id `9` is absent from the user id map
`[(5, 0)]`, so it converts to the sentinel `1` and prediction succeeds
with the fallback-row score `mu + item bias`. -/
theorem unknown_eid_uses_fallback_witness :
    toIid [((5 : ℤ), 0)] 1 9 = 1
    ∧ predictExt (postProcess 1 2 [3] [5] [[7]] [[11]]) [((5 : ℤ), 0)]
        [((7 : ℤ), 0)] 1 1 9 7
        = some (2 + ([(5 : ℚ)] ++ [0]).getD (toIid [((7 : ℤ), 0)] 1 7) 0) :=
  ⟨(unknown_eid_uses_fallback 1 2 [3] [5] [[7]] [[11]] 1 1 [((5 : ℤ), 0)]
      [((7 : ℤ), 0)] 9 7 rfl rfl rfl rfl (by decide) (by decide)).1
      (by decide),
   (unknown_eid_uses_fallback 1 2 [3] [5] [[7]] [[11]] 1 1 [((5 : ℤ), 0)]
      [((7 : ℤ), 0)] 9 7 rfl rfl rfl rfl (by decide) (by decide)).2.2.1
      (by decide)⟩

end KamRecSys
